import Mathlib

/-!
Verification development for the semantic-clustering core of the `daily-ai`
repository (`src/classify/...`). The numeric code is embedded shallowly over
the rational numbers: every `f64` value is modelled as a `ℚ`, `f64::sqrt` is
modelled by `Rat.sqrt` (exact on perfect squares), and machine constants such
as `f64::MAX` are carried as exact rationals. Matrices are modelled as total
functions `ℕ → ℕ → ℚ` together with explicit dimension arguments; entries
outside the stated dimensions are irrelevant junk, mirroring the fact that an
`ndarray` of shape `(n, d)` simply has no such entries. Fallible or panicking
code paths are made explicit in the return types.
-/

namespace DailyAI

set_option maxRecDepth 100000

/-- A vector of `f64` values, modelled as a total function into `ℚ`.  Indices
at or beyond the vector's stated length are junk. -/
abbrev Vec : Type := ℕ → ℚ

/-- A row-major matrix of `f64` values; `x i j` is the entry at row `i`,
column `j`.  Indices outside the stated shape are junk. -/
abbrev Mat : Type := ℕ → ℕ → ℚ

/-- Dot product of two `d`-dimensional rows. -/
def dotRow (d : ℕ) (a b : Vec) : ℚ := ∑ j ∈ Finset.range d, a j * b j

/-- Squared L2 norm of a `d`-dimensional row. -/
def rowNormSq (d : ℕ) (a : Vec) : ℚ := ∑ j ∈ Finset.range d, a j ^ 2

/-- Squared Euclidean distance between two `d`-dimensional rows. -/
def sqdist (d : ℕ) (a b : Vec) : ℚ := ∑ j ∈ Finset.range d, (a j - b j) ^ 2

/-- Embedding of `row_norms` from `src/classify/linalg.rs`: per-row squared
L2 norms, or their square roots when `squared` is false.  The `f64` square
root is modelled by `Rat.sqrt`. -/
def row_norms (d : ℕ) (x : Mat) (squared : Bool) : Vec :=
  fun i => if squared then rowNormSq d (x i) else Rat.sqrt (rowNormSq d (x i))

/-- Index of the first minimum of `f` on the indices `0..m` (inclusive),
mirroring Rust's `Iterator::min_by`, which keeps the earliest minimal
element (a later element replaces the current best only when strictly
smaller). -/
def argminLe (f : ℕ → ℚ) : ℕ → ℕ
  | 0 => 0
  | m + 1 => if f (m + 1) < f (argminLe f m) then m + 1 else argminLe f m

/-- Result of `update_chunk_dense` from `src/classify/knn/lloyd.rs`:
per-chunk labels, per-cluster weighted coordinate sums, and per-cluster
accumulated weights. -/
structure ChunkOut where
  labels : ℕ → ℕ
  centers : Mat
  weights : Vec

/-- The distance surrogate computed into the `pairwise` buffer of
`update_chunk_dense`: `-2 * (x_i · c) + ‖x_i‖² + centers_squared_norms[c]`. -/
def chunkPairwise (d : ℕ) (xc : Mat) (centersOld : Mat) (centersSq : Vec) (i c : ℕ) : ℚ :=
  -2 * dotRow d (xc i) (centersOld c) + rowNormSq d (xc i) + centersSq c

/-- Embedding of `update_chunk_dense` from `src/classify/knn/lloyd.rs`.
`m` is the chunk length, `d` the feature count and `k` the cluster count.
Each point of the chunk is labelled with the first index minimising the
`pairwise` surrogate; when `updateCenters` is set the per-cluster weighted
sums and total weights are accumulated (the source's in-place accumulation
loop is embedded as a filtered sum). -/
def update_chunk_dense (m d k : ℕ) (xc : Mat) (wc : Vec) (centersOld : Mat)
    (centersSq : Vec) (updateCenters : Bool) : ChunkOut :=
  let labels := fun i => argminLe (fun c => chunkPairwise d xc centersOld centersSq i c) (k - 1)
  { labels := labels
    centers := fun c j =>
      if updateCenters then
        ∑ i ∈ (Finset.range m).filter (fun i => labels i = c), xc i j * wc i
      else 0
    weights := fun c =>
      if updateCenters then
        ∑ i ∈ (Finset.range m).filter (fun i => labels i = c), wc i
      else 0 }

/-- Result of one Lloyd iteration (`lloyd_iter_chunked_dense`). -/
structure IterOut where
  centers : Mat
  weights : Vec
  labels : ℕ → ℕ
  shift : Vec

/-- The fixed chunk size (`static CHUNK_SIZE: usize = 256`). -/
def CHUNK_SIZE : ℕ := 256

/-- The effective chunk length `n_samples_chunk = n_samples.min(CHUNK_SIZE)`
for `n` points and chunk size `s`. -/
def chunkNsc (n s : ℕ) : ℕ := min n s

/-- The number of chunks: `n / n_samples_chunk`, plus one more when the
division leaves a remainder. -/
def chunkCount (n s : ℕ) : ℕ :=
  n / chunkNsc n s + (if n % chunkNsc n s = 0 then 0 else 1)

/-- The length of chunk `t`: the remainder for the final chunk when the
division is inexact, the full chunk length otherwise (this is
`end - start` in the source's loop). -/
def chunkLenOf (n s t : ℕ) : ℕ :=
  if t = chunkCount n s - 1 ∧ 0 < n % chunkNsc n s then n % chunkNsc n s else chunkNsc n s

/-- Chunk `t` of the chunked Lloyd iteration: `update_chunk_dense` applied
to the slice `x[t*nsc .. t*nsc + chunk_len)` of the data and weights, with
the precomputed center norms. -/
def chunkUC (s n d k : ℕ) (x : Mat) (w : Vec) (centersOld : Mat) (updateCenters : Bool)
    (t : ℕ) : ChunkOut :=
  update_chunk_dense (chunkLenOf n s t) d k
    (fun i j => x (t * chunkNsc n s + i) j) (fun i => w (t * chunkNsc n s + i))
    centersOld (row_norms d centersOld true) updateCenters

/-- The single whole-data chunk: `update_chunk_dense` applied to all `n`
points at once. -/
def uncUC (n d k : ℕ) (x : Mat) (w : Vec) (centersOld : Mat) (updateCenters : Bool) : ChunkOut :=
  update_chunk_dense n d k x w centersOld (row_norms d centersOld true) updateCenters

/-- Labels assembled from the per-chunk label arrays: index `i` lives in
chunk `i / nsc` at offset `i % nsc`; indices at or beyond `n` are the
zero fill of the label buffer. -/
def chunkAssembledLabels (s n d k : ℕ) (x : Mat) (w : Vec) (centersOld : Mat)
    (updateCenters : Bool) : ℕ → ℕ :=
  fun i =>
    if i < n then (chunkUC s n d k x w centersOld updateCenters (i / chunkNsc n s)).labels
      (i % chunkNsc n s)
    else 0

/-- Per-cluster total weights accumulated across all chunks. -/
def chunkAccWeights (s n d k : ℕ) (x : Mat) (w : Vec) (centersOld : Mat)
    (updateCenters : Bool) : Vec :=
  fun c => ∑ t ∈ Finset.range (chunkCount n s),
    (chunkUC s n d k x w centersOld updateCenters t).weights c

/-- Per-cluster weighted coordinate sums accumulated across all chunks. -/
def chunkAccSums (s n d k : ℕ) (x : Mat) (w : Vec) (centersOld : Mat)
    (updateCenters : Bool) : Mat :=
  fun c j => ∑ t ∈ Finset.range (chunkCount n s),
    (chunkUC s n d k x w centersOld updateCenters t).centers c j

/-- The finalisation loop over clusters: divide each accumulated sum by the
cluster's weight when positive, keep the previous center otherwise; when
`updateCenters` is unset the old centers are returned unchanged. -/
def finalizeCenters (centersOld : Mat) (sums : Mat) (weights : Vec)
    (updateCenters : Bool) : Mat :=
  fun c j =>
    if updateCenters then
      (if 0 < weights c then sums c j / weights c else centersOld c j)
    else centersOld c j

/-- Embedding of `lloyd_iter_chunked_dense` from `src/classify/knn/lloyd.rs`,
generalised over the chunk size `s` (the source fixes `s = CHUNK_SIZE`).
The `n` points are processed in chunks of at most `s` points: each chunk
produces partial labels and partial weighted center sums via
`update_chunk_dense`, the partial sums are accumulated across chunks, and
centers are then finalised (weighted mean per cluster, previous center kept
for clusters of non-positive total weight). -/
def lloyd_iter_chunked_with (s n d k : ℕ) (x : Mat) (w : Vec) (centersOld : Mat)
    (updateCenters : Bool) : IterOut :=
  if n = 0 then
    { centers := centersOld, weights := fun _ => 0, labels := fun _ => 0, shift := fun _ => 0 }
  else
    { centers := finalizeCenters centersOld (chunkAccSums s n d k x w centersOld updateCenters)
        (chunkAccWeights s n d k x w centersOld updateCenters) updateCenters
      weights := chunkAccWeights s n d k x w centersOld updateCenters
      labels := chunkAssembledLabels s n d k x w centersOld updateCenters
      shift := fun c =>
        if updateCenters then
          Rat.sqrt (sqdist d (centersOld c)
            (finalizeCenters centersOld (chunkAccSums s n d k x w centersOld updateCenters)
              (chunkAccWeights s n d k x w centersOld updateCenters) updateCenters c))
        else 0 }

/-- `lloyd_iter_chunked_dense` as in the source: chunk size `CHUNK_SIZE`. -/
def lloyd_iter_chunked_dense (n d k : ℕ) (x : Mat) (w : Vec) (centersOld : Mat)
    (updateCenters : Bool) : IterOut :=
  lloyd_iter_chunked_with CHUNK_SIZE n d k x w centersOld updateCenters

/-- The unchunked reference computation: a single assignment-and-update pass
over all `n` points at once (one chunk covering everything). -/
def lloyd_iter_unchunked (n d k : ℕ) (x : Mat) (w : Vec) (centersOld : Mat)
    (updateCenters : Bool) : IterOut :=
  if n = 0 then
    { centers := centersOld, weights := fun _ => 0, labels := fun _ => 0, shift := fun _ => 0 }
  else
    { centers := finalizeCenters centersOld (uncUC n d k x w centersOld updateCenters).centers
        (uncUC n d k x w centersOld updateCenters).weights updateCenters
      weights := (uncUC n d k x w centersOld updateCenters).weights
      labels := fun i => if i < n then (uncUC n d k x w centersOld updateCenters).labels i else 0
      shift := fun c =>
        if updateCenters then
          Rat.sqrt (sqdist d (centersOld c)
            (finalizeCenters centersOld (uncUC n d k x w centersOld updateCenters).centers
              (uncUC n d k x w centersOld updateCenters).weights updateCenters c))
        else 0 }

/-- Embedding of `inertia_dense` from `src/classify/knn/lloyd.rs`: the sum
over points of the squared distance to the assigned center, weighted by the
sample weight. -/
def inertia_dense (n d : ℕ) (x : Mat) (w : Vec) (centers : Mat) (labels : ℕ → ℕ) : ℚ :=
  ∑ i ∈ Finset.range n, sqdist d (x i) (centers (labels i)) * w i

/-- `usize::MAX` on a 64-bit target; `kmeans_single_lloyd` initialises
`labels_old` to this sentinel. -/
def USIZE_MAX : ℕ := 2 ^ 64 - 1

/-- Element-wise equality of two length-`n` label arrays, mirroring the
`new_labels == labels_old` comparison of `ndarray` arrays. -/
def labelsEq (n : ℕ) (a b : ℕ → ℕ) : Bool :=
  (List.range n).all (fun i => a i == b i)

/-- State returned by the main loop of `kmeans_single_lloyd`: the current
centers and labels, whether strict convergence was detected, and the number
of completed iterations. -/
structure GoOut where
  centers : Mat
  labels : ℕ → ℕ
  strict : Bool
  iters : ℕ

/-- The `for i in 0..max_iter` loop body of `kmeans_single_lloyd`, embedded
as structural recursion on the remaining iteration budget.  Each round runs
one chunked Lloyd iteration; the loop exits early with `strict = true` when
the new labels equal the previous round's labels, and with `strict = false`
when the summed squared center shift drops to at most `tol`. -/
def lloydGo (n d k : ℕ) (x : Mat) (w : Vec) (tol : ℚ) :
    ℕ → ℕ → Mat → (ℕ → ℕ) → (ℕ → ℕ) → GoOut
  | 0, iters, centers, labels, _labelsOld =>
    { centers := centers, labels := labels, strict := false, iters := iters }
  | fuel + 1, iters, centers, _labels, labelsOld =>
    let r := lloyd_iter_chunked_dense n d k x w centers true
    if labelsEq n r.labels labelsOld then
      { centers := r.centers, labels := r.labels, strict := true, iters := iters + 1 }
    else
      let shiftTot := ∑ c ∈ Finset.range k, r.shift c ^ 2
      if shiftTot ≤ tol then
        { centers := r.centers, labels := r.labels, strict := false, iters := iters + 1 }
      else
        lloydGo n d k x w tol fuel (iters + 1) r.centers r.labels r.labels

/-- Result of a single k-means run: `(labels, inertia, centers, n_iter)`. -/
structure LloydOut where
  labels : ℕ → ℕ
  inertia : ℚ
  centers : Mat
  iters : ℕ

/-- Embedding of `kmeans_single_lloyd` from `src/classify/knn/lloyd.rs`.
Runs the Lloyd loop from `centersInit`; if the loop did not exit by strict
convergence, labels are recomputed once more against the final centers
(`update_centers = false`) so that the returned labels and centers match. -/
def kmeans_single_lloyd (n d k : ℕ) (x : Mat) (w : Vec) (centersInit : Mat)
    (maxIter : ℕ) (tol : ℚ) : LloydOut :=
  let r := lloydGo n d k x w tol maxIter 0 centersInit (fun _ => 0) (fun _ => USIZE_MAX)
  let labels :=
    if r.strict then r.labels
    else (lloyd_iter_chunked_dense n d k x w r.centers false).labels
  { labels := labels
    inertia := inertia_dense n d x w r.centers labels
    centers := r.centers
    iters := r.iters }

/-- Rust's saturating float-to-`usize` cast (`as usize`): truncate toward
zero, clamping negatives to `0`.  Used on the nonnegative seed samples in
`init_centroids`. -/
def usizeOfRat (q : ℚ) : ℕ := q.floor.toNat

/-- Embedding of the `KnnInit::Random` branch of `KnnInit::init_centroids`
(`src/classify/knn/mod.rs`).  The source draws `n_clusters` seeds from the
caller's distribution against the ambient thread RNG (`rand::rng()`); that
ambient randomness is modelled as an explicit sample stream `s`, of which
this call consumes `s off, …, s (off + k - 1)`.  Each seed `v` selects data
row `(v * n_samples) as usize`. -/
def randomInitCentroids (n k : ℕ) (xc : Mat) (s : ℕ → ℚ) (off : ℕ) : Mat :=
  fun c j => xc (usizeOfRat (s (off + c) * n)) j

/-- Fitted k-means state exposed by `Knn::fit`: best labels, centers,
inertia and iteration count over the restarts, plus whether the
fewer-than-k-distinct-clusters warning fires. -/
structure FitOut where
  labels : ℕ → ℕ
  centers : Mat
  inertia : ℚ
  iters : ℕ
  warns : Bool

/-- `HashSet::len` of the collected label array: the number of distinct
labels among `l 0, …, l (n-1)`. -/
def distinctLabels (n : ℕ) (l : ℕ → ℕ) : ℕ := ((List.range n).map l).dedup.length

/-- `KnnInit::n_init` for the `Random` strategy: the configured value when
positive, otherwise the default of 10 restarts. -/
def knnNInit (param : ℕ) : ℕ := if 0 < param then param else 10

/-- The data as `Knn::fit` hands it to the k-means runs: the per-column
mean is subtracted first (`mean_axis(Axis(0))`, with the
`unwrap_or(zeros)` fallback for an empty axis). -/
def fitCenteredData (n : ℕ) (x : Mat) : Mat :=
  fun i j => x i j - (if n = 0 then 0 else (∑ i' ∈ Finset.range n, x i' j) / n)

/-- One restart of the `for _ in 0..n_init` loop of `Knn::fit`: run a
single Lloyd k-means from freshly drawn random centroids (restart `r`
consumes stream samples `r*k, …, r*k + k - 1`) and keep the incumbent
unless the new run's inertia is strictly lower. -/
def fitStep (n d k maxIter : ℕ) (tol : ℚ) (xc : Mat) (s : ℕ → ℚ)
    (acc : Option LloydOut) (r : ℕ) : Option LloydOut :=
  let out := kmeans_single_lloyd n d k xc (fun _ => 1)
    (randomInitCentroids n k xc s (r * k)) maxIter tol
  match acc with
  | none => some out
  | some b => if out.inertia < b.inertia then some out else some b

/-- The best run over all `n_init` restarts. -/
def fitBest (n d k maxIter : ℕ) (tol : ℚ) (nInit : ℕ) (xc : Mat) (s : ℕ → ℚ) :
    Option LloydOut :=
  (List.range nInit).foldl (fitStep n d k maxIter tol xc s) none

/-- Embedding of `Knn::fit` (`src/classify/knn/mod.rs`) in its
`KnnInit::Random` configuration — the one reached from `Knn::default()`,
which is what `HdbscanClusterer::cluster` uses.  Sample weights are all 1;
the data is centered by the per-column mean before clustering; `n_init`
restarts are run, each drawing `k` fresh seeds from the ambient random
stream `s`, and the run with strictly lowest inertia is kept (the earliest
run wins ties).  The warning condition of the source
(`distinct_clusters < self.k`) is recorded in `warns`; the `none` branch is
unreachable since `n_init ≥ 1`. -/
def fitRandom (n d k maxIter : ℕ) (tol : ℚ) (nInitParam : ℕ) (x : Mat) (s : ℕ → ℚ) : FitOut :=
  match fitBest n d k maxIter tol (knnNInit nInitParam) (fitCenteredData n x) s with
  | none =>
    { labels := fun _ => 0, centers := fun _ _ => 0, inertia := 0, iters := 0, warns := false }
  | some b =>
    { labels := b.labels, centers := b.centers, inertia := b.inertia, iters := b.iters,
      warns := decide (distinctLabels n b.labels < k) }

/-- The largest finite `f64` value, `(2^53 - 1) * 2^971`, written as an
exact numeral (see `f64MAX_eq`). -/
def f64MAX : ℚ := 179769313486231570814527423731704356798070567525844996598917476803157260780028538760589558632766878171540458953514382464234321326889464182768467546703537516986049910576551282076245490090389328944075868508455133942304583236903222948165808559332123348274797826204144723168738177180919299881250404026184124858368

/-- Embedding of `normalize_embedding` from `src/classify.rs` (lines
320–327): the row's L2 norm is computed, the denominator is clamped from
below by `f64::MAX` (`sum_sq.sqrt().max(f64::MAX)`, the maximum of the two
written out as a conditional), and every component is divided by that
denominator. -/
def normalize_embedding (v : List ℚ) : List ℚ :=
  let root := Rat.sqrt ((v.map (fun t => t * t)).sum)
  let norm := if root ≤ f64MAX then f64MAX else root
  v.map (fun t => t / norm)

/-- The centering step of `pca_reduce` (`src/classify/pca.rs`): the source
computes `mean_axis(Axis(1))` — the mean of each **row** — and subtracts
that per-row mean from every entry of the row via the column-wise
subtraction loop. -/
def pca_center (n d : ℕ) (x : Mat) : Mat :=
  fun i j => x i j - (∑ l ∈ Finset.range d, x i l) / d

/-- The centering the claim (and spec §4.2) describes: subtract from every
row the per-feature **column** mean taken across all `n` samples. -/
def pca_center_claimed (n d : ℕ) (x : Mat) : Mat :=
  fun i j => x i j - (∑ i' ∈ Finset.range n, x i' j) / n

/-- Embedding of `pca_reduce` (`src/classify/pca.rs`), parameterised by the
external SVD routine: `svdVt m` is the `v^t` factor that
`m.svd(false, true)` returns for the centered matrix `m`.  The source takes
`v = vt.t()`, slices its first `ncomp` columns and multiplies:
`reduced[i][j] = Σ_l centered[i][l] * v[l][j]` for `j < ncomp`. -/
def pca_reduce (svdVt : Mat → Mat) (n d ncomp : ℕ) (x : Mat) : Mat :=
  fun i j => ∑ l ∈ Finset.range d, pca_center n d x i l * svdVt (pca_center n d x) j l

/-- The scan inside `elbow_kneedle`: fold over the indices keeping the pair
(best distance, best index); a later index replaces the current best only
when its distance is strictly larger, and the accumulator starts below
every possible distance (modelling the `-f64::INFINITY` start). -/
def argmaxFrom (f : ℕ → ℚ) : List ℕ → ℚ × ℕ → ℚ × ℕ
  | [], acc => acc
  | i :: rest, acc => argmaxFrom f rest (if acc.1 < f i then (f i, i) else acc)

/-- Embedding of `elbow_kneedle` from `src/classify/linalg.rs`: draw the
chord from `(0, kd[0])` to `(n-1, kd[n-1])`, compute each index's
perpendicular distance to the chord (`|cross| / ‖chord‖`), and return the
value at the index of maximum perpendicular distance.  Perpendicular
distances are nonnegative, so the `-1` start plays the role of the
`-f64::INFINITY` initial best. -/
def elbow_kneedle (kd : List ℚ) : ℚ :=
  let n := kd.length
  let y1 := kd.getD 0 0
  let y2 := kd.getD (n - 1) 0
  let abX : ℚ := (n : ℚ) - 1
  let abY := y2 - y1
  let abNorm := Rat.sqrt (abX * abX + abY * abY)
  let dist := fun i : ℕ => |(i : ℚ) * abY - (kd.getD i 0 - y1) * abX| / abNorm
  kd.getD (argmaxFrom dist (List.range n) (-1, 0)).2 0

/-- Outcome of running a Rust function that can abort the process:
either a normal return value or a panic (`assert!` failure or
out-of-bounds indexing). -/
inductive RunOutcome (α : Type) where
  | ok : α → RunOutcome α
  | panicked : RunOutcome α
deriving DecidableEq

/-- Embedding of `embeddings_to_ndarray` from `src/classify/convert.rs`.
The source reads `embs[0].len()` before anything else, so an empty input
panics on the index; a row shorter than row 0 panics inside the fill loop;
otherwise every row is truncated to the width of row 0. -/
def embeddings_to_ndarray (embs : List (List ℚ)) : RunOutcome (List (List ℚ)) :=
  match embs with
  | [] => RunOutcome.panicked
  | e0 :: _ =>
    if embs.all (fun r => e0.length ≤ r.length) then
      RunOutcome.ok (embs.map (fun r => r.take e0.length))
    else RunOutcome.panicked

/-- A rational strictly above every finite `f64`, modelling
`f64::INFINITY` as used for the self-distance sentinel. -/
def f64INFINITY : ℚ := 2 ^ 1200

/-- Embedding of `euclidean_distances` from `src/classify/knn/utils.rs`
with the norm arguments left to be recomputed (as in `Knn::distances`):
`‖a_i‖² + ‖b_j‖² - 2 a_i·b_j`, clamped below at 0, square-rooted unless
`squared` is requested. -/
def euclidean_distances (d : ℕ) (a b : Mat) (squared : Bool) : Mat :=
  fun i j =>
    let v := -2 * dotRow d (a i) (b j) + rowNormSq d (a i) + rowNormSq d (b j)
    let v' := if 0 < v then v else 0
    if squared then v' else Rat.sqrt v'

/-- Stable insertion of a value into a sorted list (ascending). -/
def insertSorted (a : ℚ) : List ℚ → List ℚ
  | [] => [a]
  | b :: l => if a ≤ b then a :: b :: l else b :: insertSorted a l

/-- Ascending insertion sort, modelling `sort_by(partial_cmp)` on a row of
finite distances (a total order on `ℚ`, so the sorted result is the unique
ascending arrangement). -/
def sortAsc : List ℚ → List ℚ
  | [] => []
  | a :: l => insertSorted a (sortAsc l)

/-- Embedding of `Knn::distances` from `src/classify/knn/mod.rs`.  The
source begins with `assert!(self.k < n_samples)`, so `k ≥ n` aborts the
process; otherwise the full pairwise Euclidean distance matrix is formed,
each diagonal entry is replaced by `f64::INFINITY`, each row is sorted
ascending and its first `k` entries are kept. -/
def knn_distances (k n d : ℕ) (x : Mat) : RunOutcome (List (List ℚ)) :=
  if k < n then
    let full := euclidean_distances d x x false
    RunOutcome.ok ((List.range n).map (fun i =>
      (sortAsc ((List.range n).map
        (fun j => if j = i then f64INFINITY else full i j))).take k))
  else RunOutcome.panicked

/-- Rust's `i32`-to-`usize` cast: sign-extend to 64 bits and reinterpret,
i.e. reduce modulo `2^64`. -/
def i32AsUsize (z : ℤ) : ℕ := (z % 2 ^ 64).toNat

/-- Embedding of `group_by_cluster` from `src/classify/linalg.rs`: every
item is inserted under the key `label as usize` — including noise items
labelled `-1`, which land under key `2^64 - 1`.  The map is modelled as the
function from keys to the (order-preserving) list of items inserted under
that key; items are kept abstract in `α`. -/
def group_by_cluster {α : Type} (urls : List α) (labels : List ℤ) : ℕ → List α :=
  fun key => ((urls.zip labels).filter (fun p => i32AsUsize p.2 == key)).map Prod.fst

/-- Embedding of the grouping loop of `HdbscanClusterer::cluster`
(`src/classify/mod.rs` lines 48–54): index `i` is inserted under key
`label as usize` only when `label >= 0`; negative (noise) labels are
dropped. -/
def hdbscan_cluster_group (labels : List ℤ) : ℕ → List ℕ :=
  fun key => (List.range labels.length).filter
    (fun i => decide (0 ≤ labels.getD i 0 ∧ (labels.getD i 0).toNat = key))

/-- The label assignment a Lloyd iteration computes from a fixed set of
centers: each point of the data gets the first index `c < k` minimising the
squared distance to center `c` (indices at or beyond `n` are the array's
zero fill). -/
def assignLabels (n d k : ℕ) (x : Mat) (centers : Mat) : ℕ → ℕ :=
  fun i => if i < n then argminLe (fun c => sqdist d (x i) (centers c)) (k - 1) else 0

/-- Total sample weight assigned to cluster `c` by a label vector. -/
def clusterWeight (n : ℕ) (w : Vec) (labels : ℕ → ℕ) (c : ℕ) : ℚ :=
  ∑ i ∈ (Finset.range n).filter (fun i => labels i = c), w i

/-- Weighted coordinate sum of the points assigned to cluster `c`. -/
def clusterSum (n : ℕ) (x : Mat) (w : Vec) (labels : ℕ → ℕ) (c j : ℕ) : ℚ :=
  ∑ i ∈ (Finset.range n).filter (fun i => labels i = c), x i j * w i

/-- The center-update rule of a Lloyd iteration: the weighted mean of the
assigned points for clusters of positive total weight, the previous center
otherwise. -/
def updateCentersFrom (n : ℕ) (x : Mat) (w : Vec) (centersOld : Mat) (labels : ℕ → ℕ) : Mat :=
  fun c j =>
    if 0 < clusterWeight n w labels c
    then clusterSum n x w labels c j / clusterWeight n w labels c
    else centersOld c j

/-- The centers held by `kmeans_single_lloyd` after `t` full Lloyd
iterations starting from `c0` (iteration `t+1` transforms
`lloydSeqCenters t` into `lloydSeqCenters (t+1)`). -/
def lloydSeqCenters (n d k : ℕ) (x : Mat) (w : Vec) (c0 : Mat) : ℕ → Mat
  | 0 => c0
  | t + 1 => (lloyd_iter_chunked_dense n d k x w (lloydSeqCenters n d k x w c0 t) true).centers

/-- The `(centers, labels)` pair produced by Lloyd iteration `t+1` of
`kmeans_single_lloyd`: labels are assigned against the iteration's incoming
centers, and the centers are then updated from those labels. -/
def lloydIterState (n d k : ℕ) (x : Mat) (w : Vec) (c0 : Mat) (t : ℕ) : Mat × (ℕ → ℕ) :=
  ((lloyd_iter_chunked_dense n d k x w (lloydSeqCenters n d k x w c0 t) true).centers,
   (lloyd_iter_chunked_dense n d k x w (lloydSeqCenters n d k x w c0 t) true).labels)

/-- Unit sample weights, as used by `Knn::fit`. -/
def wOne : Vec := fun _ => 1

/-- Two 1-D points, `0` and `10`. -/
def xTwoPoints : Mat := fun i _ => if i = 0 then 0 else 10

/-- Two 1-D centers, `0` and `10`. -/
def cTwoCenters : Mat := fun c _ => if c = 0 then 0 else 10

/-- The all-zero matrix. -/
def xAllZero : Mat := fun _ _ => 0

/-- Three 1-D points `0, 1, 2`. -/
def xRamp : Mat := fun i _ => (i : ℚ)

/-- An ambient random stream that always samples `0`. -/
def streamZero : ℕ → ℚ := fun _ => 0

/-- An ambient random stream alternating between `0` and `1/2`. -/
def streamAlt : ℕ → ℚ := fun p => if p % 2 = 0 then 0 else 1 / 2

/-- The 2×2 matrix `[[0,2],[0,0]]` separating row-wise from column-wise
centering. -/
def xPcaEx : Mat := fun i j => if i = 0 ∧ j = 1 then 2 else 0

/-- Mutual consistency of a `(centers, labels)` pair: every in-range point
carries an in-range cluster index whose center is nearest among all `k`
centers. -/
def ConsistentPair (n d k : ℕ) (x : Mat) (centers : Mat) (labels : ℕ → ℕ) : Prop :=
  ∀ i < n, labels i < k ∧ ∀ c < k,
    sqdist d (x i) (centers (labels i)) ≤ sqdist d (x i) (centers c)

/-- The argmin index never exceeds the scanned range. -/
lemma argminLe_le (f : ℕ → ℚ) (m : ℕ) : argminLe f m ≤ m := by
  induction m with
  | zero => simp [argminLe]
  | succ m ih =>
    simp only [argminLe]
    split
    · exact le_refl _
    · omega

/-- The argmin attains the minimum over the scanned range. -/
lemma argminLe_min (f : ℕ → ℚ) (m : ℕ) : ∀ c ≤ m, f (argminLe f m) ≤ f c := by
  induction m with
  | zero =>
    intro c hc
    have : c = 0 := Nat.le_zero.mp hc
    simp [this, argminLe]
  | succ m ih =>
    intro c hc
    simp only [argminLe]
    by_cases hlt : f (m + 1) < f (argminLe f m)
    · rw [if_pos hlt]
      rcases Nat.lt_succ_iff_lt_or_eq.mp (Nat.lt_succ_of_le hc) with h | h
      · exact le_of_lt (lt_of_lt_of_le hlt (ih c (Nat.lt_succ_iff.mp h)))
      · exact le_of_eq (congrArg f h.symm)
    · rw [if_neg hlt]
      push_neg at hlt
      rcases Nat.lt_succ_iff_lt_or_eq.mp (Nat.lt_succ_of_le hc) with h | h
      · exact ih c (Nat.lt_succ_iff.mp h)
      · exact h ▸ hlt

/-- `‖a - b‖² = ‖a‖² + ‖b‖² - 2 a·b`: the expansion underlying the
`pairwise` distance surrogate of `update_chunk_dense`, exact over `ℚ`. -/
lemma sqdist_expand (d : ℕ) (a b : Vec) :
    sqdist d a b = rowNormSq d a + rowNormSq d b - 2 * dotRow d a b := by
  unfold sqdist rowNormSq dotRow
  rw [Finset.mul_sum, ← Finset.sum_add_distrib, ← Finset.sum_sub_distrib]
  exact Finset.sum_congr rfl fun j _ => by ring

/-- The `pairwise` surrogate equals the true squared distance when the
center norms are the precomputed squared row norms. -/
lemma chunkPairwise_eq_sqdist (d : ℕ) (xc centers : Mat) (i c : ℕ) :
    chunkPairwise d xc centers (row_norms d centers true) i c
      = sqdist d (xc i) (centers c) := by
  rw [sqdist_expand]
  unfold chunkPairwise row_norms
  simp only [if_true]
  ring

/-- `labelsEq` is element-wise equality on the first `n` entries. -/
lemma labelsEq_iff (n : ℕ) (a b : ℕ → ℕ) :
    labelsEq n a b = true ↔ ∀ i < n, a i = b i := by
  unfold labelsEq
  simp [List.all_eq_true]

/-- Splitting a range sum at an intermediate point. -/
lemma sum_range_split (f : ℕ → ℚ) (a b : ℕ) :
    ∑ i ∈ Finset.range (a + b), f i
      = (∑ i ∈ Finset.range a, f i) + ∑ i ∈ Finset.range b, f (a + i) := by
  induction b with
  | zero => simp
  | succ b ih =>
    rw [Nat.add_succ, Finset.sum_range_succ, ih, Finset.sum_range_succ, add_assoc]

/-- Summing chunk by chunk, where chunk `t` covers the indices from
`t * nsc` to `min ((t+1) * nsc) n`, accumulates the plain range sum. -/
lemma sum_chunked (g : ℕ → ℚ) (nsc n : ℕ) (C : ℕ) :
    ∑ t ∈ Finset.range C,
      ∑ i ∈ Finset.range (min ((t + 1) * nsc) n - t * nsc), g (t * nsc + i)
        = ∑ i ∈ Finset.range (min (C * nsc) n), g i := by
  induction C with
  | zero => simp
  | succ C ih =>
    rw [Finset.sum_range_succ, ih]
    have hmul : (C + 1) * nsc = C * nsc + nsc := by ring
    rcases le_or_lt n (C * nsc) with h | h
    · have h1 : min (C * nsc) n = n := by omega
      have h2 : min ((C + 1) * nsc) n = n := by omega
      rw [h1, h2]
      have h3 : n - C * nsc = 0 := by omega
      rw [h3]
      simp
    · have h1 : min (C * nsc) n = C * nsc := by omega
      have hCE : C * nsc ≤ min ((C + 1) * nsc) n := by omega
      have hE : min ((C + 1) * nsc) n = C * nsc + (min ((C + 1) * nsc) n - C * nsc) := by omega
      rw [h1]
      conv_rhs => rw [hE]
      rw [sum_range_split]

/-- The chunk lengths of the source agree with the span
`min ((t+1) * nsc) n - t * nsc` for every in-range chunk index. -/
lemma chunkLenOf_eq (n s t : ℕ) (hn : 0 < n) (hs : 0 < s) (ht : t < chunkCount n s) :
    chunkLenOf n s t = min ((t + 1) * chunkNsc n s) n - t * chunkNsc n s := by
  have h0 : 0 < chunkNsc n s := lt_min hn hs
  unfold chunkCount at ht
  unfold chunkLenOf chunkCount
  have hdm := Nat.div_add_mod n (chunkNsc n s)
  have hmod : n % chunkNsc n s < chunkNsc n s := Nat.mod_lt n h0
  set nsc := chunkNsc n s with hnsc
  set q := n / nsc with hq
  set r := n % nsc with hr
  have hcomm : nsc * q = q * nsc := Nat.mul_comm nsc q
  have hmul1 : (t + 1) * nsc = t * nsc + nsc := by ring
  by_cases hlast : t = q + (if r = 0 then 0 else 1) - 1 ∧ 0 < r
  · rw [if_pos hlast]
    obtain ⟨hteq, hrpos⟩ := hlast
    have hrne : r ≠ 0 := by omega
    have hite : (if r = 0 then 0 else 1) = 1 := if_neg hrne
    rw [hite] at hteq
    have htq : t = q := by omega
    subst htq
    omega
  · rw [if_neg hlast]
    have htq : t + 1 ≤ q := by
      by_cases hrz : r = 0
      · have hF : (if r = 0 then 0 else 1) = 0 := if_pos hrz
        omega
      · have hF : (if r = 0 then 0 else 1) = 1 := if_neg hrz
        have hne : t ≠ q := fun h => hlast ⟨by omega, by omega⟩
        omega
    have hle : (t + 1) * nsc ≤ q * nsc := Nat.mul_le_mul_right nsc htq
    omega

/-- Enough chunks are taken to cover all `n` points. -/
lemma chunkCount_covers (n s : ℕ) (hn : 0 < n) (hs : 0 < s) :
    min (chunkCount n s * chunkNsc n s) n = n := by
  have h0 : 0 < chunkNsc n s := lt_min hn hs
  unfold chunkCount
  have hdm := Nat.div_add_mod n (chunkNsc n s)
  have hmod : n % chunkNsc n s < chunkNsc n s := Nat.mod_lt n h0
  set nsc := chunkNsc n s
  set q := n / nsc
  set r := n % nsc
  have hcomm : nsc * q = q * nsc := Nat.mul_comm nsc q
  by_cases hrz : r = 0
  · have hF : (if r = 0 then 0 else 1) = 0 := if_pos hrz
    have h1 : (q + (if r = 0 then 0 else 1)) * nsc = q * nsc := by rw [hF]; ring
    omega
  · have hF : (if r = 0 then 0 else 1) = 1 := if_neg hrz
    have h1 : (q + (if r = 0 then 0 else 1)) * nsc = q * nsc + nsc := by rw [hF]; ring
    omega

/-- A chunk labels its points exactly as the whole-data pass labels the
corresponding absolute indices: a point's label depends only on its own row
and the centers. -/
lemma chunkUC_labels (s n d k : ℕ) (x : Mat) (w : Vec) (co : Mat) (u : Bool) (t i : ℕ) :
    (chunkUC s n d k x w co u t).labels i
      = (uncUC n d k x w co u).labels (t * chunkNsc n s + i) := rfl

/-- Summing any per-index quantity chunk by chunk covers the whole range
exactly once. -/
lemma sum_filter_chunks (s n : ℕ) (hn : 0 < n) (hs : 0 < s) (g : ℕ → ℚ) :
    ∑ t ∈ Finset.range (chunkCount n s),
      ∑ i ∈ Finset.range (chunkLenOf n s t), g (t * chunkNsc n s + i)
      = ∑ i ∈ Finset.range n, g i := by
  have h1 : ∀ t ∈ Finset.range (chunkCount n s),
      ∑ i ∈ Finset.range (chunkLenOf n s t), g (t * chunkNsc n s + i)
        = ∑ i ∈ Finset.range (min ((t + 1) * chunkNsc n s) n - t * chunkNsc n s),
            g (t * chunkNsc n s + i) := by
    intro t ht
    rw [chunkLenOf_eq n s t hn hs (Finset.mem_range.mp ht)]
  rw [Finset.sum_congr rfl h1, sum_chunked, chunkCount_covers n s hn hs]

/-- The per-cluster filtered sums of any per-point quantity, accumulated
chunk by chunk, equal the whole-data filtered sum. -/
lemma chunk_filtered_sum (s n d k : ℕ) (hn : 0 < n) (hs : 0 < s) (x : Mat) (w : Vec)
    (co : Mat) (f : ℕ → ℚ) (c : ℕ) :
    ∑ t ∈ Finset.range (chunkCount n s),
      ∑ i ∈ (Finset.range (chunkLenOf n s t)).filter
        (fun i => (uncUC n d k x w co true).labels (t * chunkNsc n s + i) = c),
          f (t * chunkNsc n s + i)
      = ∑ i ∈ (Finset.range n).filter
          (fun i => (uncUC n d k x w co true).labels i = c), f i := by
  have h1 : ∀ t ∈ Finset.range (chunkCount n s),
      ∑ i ∈ (Finset.range (chunkLenOf n s t)).filter
        (fun i => (uncUC n d k x w co true).labels (t * chunkNsc n s + i) = c),
          f (t * chunkNsc n s + i)
        = ∑ i ∈ Finset.range (chunkLenOf n s t),
            (if (uncUC n d k x w co true).labels (t * chunkNsc n s + i) = c
             then f (t * chunkNsc n s + i) else 0) := by
    intro t _
    rw [Finset.sum_filter]
  rw [Finset.sum_congr rfl h1,
    sum_filter_chunks s n hn hs
      (fun m => if (uncUC n d k x w co true).labels m = c then f m else 0),
    ← Finset.sum_filter]

/-- Accumulating the per-chunk cluster weights across chunks gives the
whole-data cluster weights. -/
lemma chunkAccWeights_eq (s n d k : ℕ) (hn : 0 < n) (hs : 0 < s) (x : Mat) (w : Vec)
    (co : Mat) (u : Bool) :
    chunkAccWeights s n d k x w co u = (uncUC n d k x w co u).weights := by
  funext c
  cases u with
  | false =>
    show (∑ _t ∈ Finset.range (chunkCount n s), (0 : ℚ)) = (0 : ℚ)
    simp
  | true => exact chunk_filtered_sum s n d k hn hs x w co w c

/-- Accumulating the per-chunk weighted coordinate sums across chunks gives
the whole-data sums. -/
lemma chunkAccSums_eq (s n d k : ℕ) (hn : 0 < n) (hs : 0 < s) (x : Mat) (w : Vec)
    (co : Mat) (u : Bool) :
    chunkAccSums s n d k x w co u = (uncUC n d k x w co u).centers := by
  funext c j
  cases u with
  | false =>
    show (∑ _t ∈ Finset.range (chunkCount n s), (0 : ℚ)) = (0 : ℚ)
    simp
  | true => exact chunk_filtered_sum s n d k hn hs x w co (fun m => x m j * w m) c

/-- The assembled labels equal the whole-data labels on the first `n`
entries (and the zero fill beyond). -/
lemma chunkAssembledLabels_eq (s n d k : ℕ) (x : Mat) (w : Vec) (co : Mat) (u : Bool) :
    chunkAssembledLabels s n d k x w co u
      = fun i => if i < n then (uncUC n d k x w co u).labels i else 0 := by
  funext i
  unfold chunkAssembledLabels
  by_cases hi : i < n
  · rw [if_pos hi, if_pos hi]
    have h1 := Nat.div_add_mod i (chunkNsc n s)
    have h2 : i / chunkNsc n s * chunkNsc n s + i % chunkNsc n s = i := by
      rw [Nat.mul_comm]
      exact h1
    calc (chunkUC s n d k x w co u (i / chunkNsc n s)).labels (i % chunkNsc n s)
        = (uncUC n d k x w co u).labels
            (i / chunkNsc n s * chunkNsc n s + i % chunkNsc n s) := rfl
      _ = (uncUC n d k x w co u).labels i := by rw [h2]
  · rw [if_neg hi, if_neg hi]

/-- Chunked and unchunked Lloyd iterations agree for every positive chunk
size: the chunking is a pure performance structuring. -/
lemma lloyd_iter_chunked_eq (s n d k : ℕ) (hs : 0 < s) (x : Mat) (w : Vec) (co : Mat)
    (u : Bool) :
    lloyd_iter_chunked_with s n d k x w co u = lloyd_iter_unchunked n d k x w co u := by
  rcases Nat.eq_zero_or_pos n with hn | hn
  · subst hn
    rfl
  · have hn0 : n ≠ 0 := Nat.pos_iff_ne_zero.mp hn
    unfold lloyd_iter_chunked_with lloyd_iter_unchunked
    rw [if_neg hn0, if_neg hn0, chunkAccWeights_eq s n d k hn hs x w co u,
      chunkAccSums_eq s n d k hn hs x w co u, chunkAssembledLabels_eq s n d k x w co u]

/-- The chunk size is positive. -/
lemma chunkSizePos : 0 < CHUNK_SIZE := by norm_num [CHUNK_SIZE]

/-- The whole-data labels are the first argmins of the true squared
distances to the centers. -/
lemma uncUC_labels (n d k : ℕ) (x : Mat) (w : Vec) (co : Mat) (u : Bool) (i : ℕ) :
    (uncUC n d k x w co u).labels i
      = argminLe (fun c => sqdist d (x i) (co c)) (k - 1) := by
  show argminLe (fun c => chunkPairwise d x co (row_norms d co true) i c) (k - 1) = _
  congr 1
  funext c
  exact chunkPairwise_eq_sqdist d x co i c

/-- The whole-data cluster weights are the canonical filtered weight sums
over the canonical assignment. -/
lemma uncUC_weights_eq (n d k : ℕ) (x : Mat) (w : Vec) (co : Mat) :
    (uncUC n d k x w co true).weights = clusterWeight n w (assignLabels n d k x co) := by
  funext c
  show (∑ i ∈ (Finset.range n).filter
      (fun i => (uncUC n d k x w co true).labels i = c), w i) = _
  unfold clusterWeight
  refine Finset.sum_congr (Finset.filter_congr ?_) (fun _ _ => rfl)
  intro i hi
  rw [uncUC_labels]
  unfold assignLabels
  rw [if_pos (Finset.mem_range.mp hi)]

/-- The whole-data weighted coordinate sums are the canonical filtered sums
over the canonical assignment. -/
lemma uncUC_centers_eq (n d k : ℕ) (x : Mat) (w : Vec) (co : Mat) (c j : ℕ) :
    (uncUC n d k x w co true).centers c j = clusterSum n x w (assignLabels n d k x co) c j := by
  show (∑ i ∈ (Finset.range n).filter
      (fun i => (uncUC n d k x w co true).labels i = c), x i j * w i) = _
  unfold clusterSum
  refine Finset.sum_congr (Finset.filter_congr ?_) (fun _ _ => rfl)
  intro i hi
  rw [uncUC_labels]
  unfold assignLabels
  rw [if_pos (Finset.mem_range.mp hi)]

/-- The labels of a dense Lloyd iteration are the canonical assignment
against the incoming centers, for either value of `update_centers`. -/
lemma lloyd_iter_labels (n d k : ℕ) (x : Mat) (w : Vec) (co : Mat) (u : Bool) :
    (lloyd_iter_chunked_dense n d k x w co u).labels = assignLabels n d k x co := by
  unfold lloyd_iter_chunked_dense
  rw [lloyd_iter_chunked_eq CHUNK_SIZE n d k chunkSizePos x w co u]
  unfold lloyd_iter_unchunked
  rcases Nat.eq_zero_or_pos n with hn | hn
  · subst hn
    rw [if_pos rfl]
    funext i
    unfold assignLabels
    simp
  · rw [if_neg (Nat.pos_iff_ne_zero.mp hn)]
    funext i
    show (if i < n then (uncUC n d k x w co u).labels i else 0) = assignLabels n d k x co i
    unfold assignLabels
    by_cases hi : i < n
    · rw [if_pos hi, if_pos hi, uncUC_labels]
    · rw [if_neg hi, if_neg hi]

/-- The returned per-cluster weights of an updating Lloyd iteration are the
canonical cluster weights of the canonical assignment. -/
lemma lloyd_iter_weights_true (n d k : ℕ) (x : Mat) (w : Vec) (co : Mat) :
    (lloyd_iter_chunked_dense n d k x w co true).weights
      = clusterWeight n w (assignLabels n d k x co) := by
  unfold lloyd_iter_chunked_dense
  rw [lloyd_iter_chunked_eq CHUNK_SIZE n d k chunkSizePos x w co true]
  unfold lloyd_iter_unchunked
  rcases Nat.eq_zero_or_pos n with hn | hn
  · subst hn
    rw [if_pos rfl]
    funext c
    unfold clusterWeight
    simp
  · rw [if_neg (Nat.pos_iff_ne_zero.mp hn)]
    exact uncUC_weights_eq n d k x w co

/-- The centers of an updating Lloyd iteration follow the canonical
center-update rule for the canonical assignment. -/
lemma lloyd_iter_centers_true (n d k : ℕ) (x : Mat) (w : Vec) (co : Mat) :
    (lloyd_iter_chunked_dense n d k x w co true).centers
      = updateCentersFrom n x w co (assignLabels n d k x co) := by
  unfold lloyd_iter_chunked_dense
  rw [lloyd_iter_chunked_eq CHUNK_SIZE n d k chunkSizePos x w co true]
  unfold lloyd_iter_unchunked
  rcases Nat.eq_zero_or_pos n with hn | hn
  · subst hn
    rw [if_pos rfl]
    funext c j
    unfold updateCentersFrom clusterWeight
    simp
  · rw [if_neg (Nat.pos_iff_ne_zero.mp hn)]
    funext c j
    show finalizeCenters co (uncUC n d k x w co true).centers
        (uncUC n d k x w co true).weights true c j = _
    unfold finalizeCenters updateCentersFrom
    rw [if_pos rfl, uncUC_weights_eq n d k x w co, uncUC_centers_eq n d k x w co c j]

/-- A non-updating Lloyd iteration returns the incoming centers. -/
lemma lloyd_iter_centers_false (n d k : ℕ) (x : Mat) (w : Vec) (co : Mat) :
    (lloyd_iter_chunked_dense n d k x w co false).centers = co := by
  unfold lloyd_iter_chunked_dense
  rw [lloyd_iter_chunked_eq CHUNK_SIZE n d k chunkSizePos x w co false]
  unfold lloyd_iter_unchunked
  rcases Nat.eq_zero_or_pos n with hn | hn
  · subst hn
    rw [if_pos rfl]
  · rw [if_neg (Nat.pos_iff_ne_zero.mp hn)]
    funext c j
    show finalizeCenters co (uncUC n d k x w co false).centers
        (uncUC n d k x w co false).weights false c j = co c j
    unfold finalizeCenters
    rfl

/-- The canonical assignment stays below `k`. -/
lemma assignLabels_lt (n d k : ℕ) (x : Mat) (co : Mat) (hk : 0 < k) (i : ℕ) (hi : i < n) :
    assignLabels n d k x co i < k := by
  unfold assignLabels
  rw [if_pos hi]
  have := argminLe_le (fun c => sqdist d (x i) (co c)) (k - 1)
  omega

/-- The canonical assignment minimises the squared distance to the
centers. -/
lemma assignLabels_min (n d k : ℕ) (x : Mat) (co : Mat) (i : ℕ) (hi : i < n)
    (c : ℕ) (hc : c < k) :
    sqdist d (x i) (co (assignLabels n d k x co i)) ≤ sqdist d (x i) (co c) := by
  unfold assignLabels
  rw [if_pos hi]
  exact argminLe_min (fun c => sqdist d (x i) (co c)) (k - 1) c (by omega)

/-- Cluster weights only depend on the labels of in-range points. -/
lemma clusterWeight_congr (n : ℕ) (w : Vec) {l1 l2 : ℕ → ℕ} (h : ∀ i < n, l1 i = l2 i)
    (c : ℕ) : clusterWeight n w l1 c = clusterWeight n w l2 c := by
  unfold clusterWeight
  refine Finset.sum_congr (Finset.filter_congr ?_) (fun _ _ => rfl)
  intro i hi
  rw [h i (Finset.mem_range.mp hi)]

/-- Cluster sums only depend on the labels of in-range points. -/
lemma clusterSum_congr (n : ℕ) (x : Mat) (w : Vec) {l1 l2 : ℕ → ℕ}
    (h : ∀ i < n, l1 i = l2 i) (c j : ℕ) :
    clusterSum n x w l1 c j = clusterSum n x w l2 c j := by
  unfold clusterSum
  refine Finset.sum_congr (Finset.filter_congr ?_) (fun _ _ => rfl)
  intro i hi
  rw [h i (Finset.mem_range.mp hi)]

/-- The center update only depends on the labels of in-range points. -/
lemma updateCentersFrom_congr (n : ℕ) (x : Mat) (w : Vec) (co : Mat) {l1 l2 : ℕ → ℕ}
    (h : ∀ i < n, l1 i = l2 i) :
    updateCentersFrom n x w co l1 = updateCentersFrom n x w co l2 := by
  funext c j
  unfold updateCentersFrom
  rw [clusterWeight_congr n w h c, clusterSum_congr n x w h c j]

/-- Updating twice from the same labels changes nothing: the second update
recomputes the same means, and empty clusters fall through to the first
update's values. -/
lemma updateCentersFrom_stable (n : ℕ) (x : Mat) (w : Vec) (prev : Mat) (labels : ℕ → ℕ) :
    updateCentersFrom n x w (updateCentersFrom n x w prev labels) labels
      = updateCentersFrom n x w prev labels := by
  funext c j
  by_cases h : 0 < clusterWeight n w labels c <;> simp [updateCentersFrom, h]

/-- `2^64` as a numeral, for `omega`. -/
lemma pow64_eq : (2 : ℕ) ^ 64 = 18446744073709551616 := by norm_num

/-- The `f64MAX` numeral is exactly `(2^53 - 1) * 2^971`. -/
lemma f64MAX_eq : f64MAX = (2 ^ 53 - 1) * 2 ^ 971 := by norm_num [f64MAX]

/-- If the Lloyd loop exits by strict convergence, its returned labels and
centers are mutually consistent.  Invariant carried through the loop: the
incoming `labels_old` is either still the `usize::MAX` sentinel fill, or it
is the very label set from which the incoming centers were updated. -/
lemma lloydGo_strict_consistent (n d k : ℕ) (x : Mat) (w : Vec) (tol : ℚ)
    (hn : 0 < n) (hk : 0 < k) (hk64 : k < 2 ^ 64) :
    ∀ (fuel iters : ℕ) (centers : Mat) (labels labelsOld : ℕ → ℕ),
      ((∀ i, labelsOld i = USIZE_MAX) ∨
        ∃ prev, centers = updateCentersFrom n x w prev labelsOld) →
      (lloydGo n d k x w tol fuel iters centers labels labelsOld).strict = true →
      ConsistentPair n d k x
        (lloydGo n d k x w tol fuel iters centers labels labelsOld).centers
        (lloydGo n d k x w tol fuel iters centers labels labelsOld).labels := by
  intro fuel
  induction fuel with
  | zero =>
    intro iters centers labels labelsOld _ hstrict
    simp [lloydGo] at hstrict
  | succ fuel ih =>
    intro iters centers labels labelsOld hinv hstrict
    simp only [lloydGo] at hstrict ⊢
    by_cases hEq : labelsEq n (lloyd_iter_chunked_dense n d k x w centers true).labels labelsOld
    · rw [if_pos hEq] at hstrict ⊢
      have hlab := lloyd_iter_labels n d k x w centers true
      have hcen := lloyd_iter_centers_true n d k x w centers
      have hEq' : ∀ i < n, assignLabels n d k x centers i = labelsOld i := by
        intro i hi
        rw [← hlab]
        exact (labelsEq_iff n _ labelsOld).mp hEq i hi
      rcases hinv with hjunk | ⟨prev, hprev⟩
      · exfalso
        have h0 : assignLabels n d k x centers 0 = labelsOld 0 := hEq' 0 hn
        have hlt : assignLabels n d k x centers 0 < k :=
          assignLabels_lt n d k x centers hk 0 hn
        have hj : labelsOld 0 = USIZE_MAX := hjunk 0
        have hmax : USIZE_MAX = 2 ^ 64 - 1 := rfl
        have h64 := pow64_eq
        omega
      · have hcc : (lloyd_iter_chunked_dense n d k x w centers true).centers = centers := by
          rw [hcen, updateCentersFrom_congr n x w centers hEq', hprev]
          exact updateCentersFrom_stable n x w prev labelsOld
        intro i hi
        show (lloyd_iter_chunked_dense n d k x w centers true).labels i < k ∧ _
        rw [hlab, hcc]
        exact ⟨assignLabels_lt n d k x centers hk i hi,
          fun c hc => assignLabels_min n d k x centers i hi c hc⟩
    · rw [if_neg hEq] at hstrict ⊢
      by_cases hTol :
          (∑ c ∈ Finset.range k,
            (lloyd_iter_chunked_dense n d k x w centers true).shift c ^ 2) ≤ tol
      · rw [if_pos hTol] at hstrict
        exact absurd hstrict (by simp)
      · rw [if_neg hTol] at hstrict ⊢
        apply ih _ _ _ _ (Or.inr ?_) hstrict
        refine ⟨centers, ?_⟩
        rw [lloyd_iter_centers_true, lloyd_iter_labels]

/-- The weighted mean minimises the weighted sum of squared deviations in
one dimension: shifting the center from the mean `m` to any `t` adds
exactly `W * (m - t)²`. -/
lemma one_dim_mean_le (s : Finset ℕ) (w a : ℕ → ℚ) (t : ℚ)
    (hW : 0 < ∑ i ∈ s, w i) :
    ∑ i ∈ s, (a i - (∑ i' ∈ s, a i' * w i') / ∑ i' ∈ s, w i') ^ 2 * w i
      ≤ ∑ i ∈ s, (a i - t) ^ 2 * w i := by
  set W := ∑ i ∈ s, w i with hWdef
  set A := ∑ i ∈ s, a i * w i with hAdef
  have hW0 : W ≠ 0 := ne_of_gt hW
  set m := A / W with hmdef
  have hA : A = m * W := (div_mul_cancel₀ A hW0).symm
  have expand : ∀ i ∈ s, (a i - t) ^ 2 * w i
      = (a i - m) ^ 2 * w i + (2 * (m - t)) * (a i * w i) + ((t - m) * (t + m)) * w i :=
    fun i _ => by ring
  have key : ∑ i ∈ s, (a i - t) ^ 2 * w i
      = (∑ i ∈ s, (a i - m) ^ 2 * w i) + W * (m - t) ^ 2 := by
    rw [Finset.sum_congr rfl expand, Finset.sum_add_distrib, Finset.sum_add_distrib,
      ← Finset.mul_sum, ← Finset.mul_sum, ← hAdef, ← hWdef, hA]
    ring
  rw [key]
  exact le_add_of_nonneg_right (mul_nonneg (le_of_lt hW) (sq_nonneg _))

/-- The weighted mean minimises the weighted sum of squared distances,
coordinate by coordinate. -/
lemma weighted_mean_le (s : Finset ℕ) (w : ℕ → ℚ) (x : Mat) (d : ℕ) (z : Vec)
    (hW : 0 < ∑ i ∈ s, w i) :
    ∑ i ∈ s, sqdist d (x i)
        (fun j => (∑ i' ∈ s, x i' j * w i') / ∑ i' ∈ s, w i') * w i
      ≤ ∑ i ∈ s, sqdist d (x i) z * w i := by
  unfold sqdist
  have h1 : ∀ (y : ℕ → ℕ → ℚ), ∑ i ∈ s, (∑ j ∈ Finset.range d, y i j) * w i
      = ∑ j ∈ Finset.range d, ∑ i ∈ s, y i j * w i := by
    intro y
    calc ∑ i ∈ s, (∑ j ∈ Finset.range d, y i j) * w i
        = ∑ i ∈ s, ∑ j ∈ Finset.range d, y i j * w i :=
          Finset.sum_congr rfl fun i _ => Finset.sum_mul _ _ _
      _ = ∑ j ∈ Finset.range d, ∑ i ∈ s, y i j * w i := Finset.sum_comm
  rw [h1, h1]
  apply Finset.sum_le_sum
  intro j _
  exact one_dim_mean_le s w (fun i => x i j) (z j) hW

/-- Per-cluster step of the center-update optimality: replacing a cluster's
center by its update does not increase that cluster's weighted
contribution (empty or weightless clusters keep their center, so their
contribution is unchanged). -/
lemma cluster_contribution_le (n d : ℕ) (x : Mat) (w : Vec) (centers : Mat)
    (labels : ℕ → ℕ) (c : ℕ) :
    ∑ i ∈ (Finset.range n).filter (fun i => labels i = c),
        sqdist d (x i) (updateCentersFrom n x w centers labels c) * w i
      ≤ ∑ i ∈ (Finset.range n).filter (fun i => labels i = c),
          sqdist d (x i) (centers c) * w i := by
  by_cases hWc : 0 < clusterWeight n w labels c
  · have hfun : updateCentersFrom n x w centers labels c
        = fun j => (∑ i' ∈ (Finset.range n).filter (fun i => labels i = c), x i' j * w i')
            / ∑ i' ∈ (Finset.range n).filter (fun i => labels i = c), w i' := by
      funext j
      show (if 0 < clusterWeight n w labels c
        then clusterSum n x w labels c j / clusterWeight n w labels c
        else centers c j) = _
      rw [if_pos hWc]
      unfold clusterSum clusterWeight
      rfl
    rw [hfun]
    exact weighted_mean_le _ w x d (centers c) hWc
  · have hfun : updateCentersFrom n x w centers labels c = centers c := by
      funext j
      show (if 0 < clusterWeight n w labels c
        then clusterSum n x w labels c j / clusterWeight n w labels c
        else centers c j) = _
      rw [if_neg hWc]
    rw [hfun]

/-- The center-update step does not increase the inertia of a fixed label
assignment. -/
lemma inertia_update_le (n d k : ℕ) (x : Mat) (w : Vec) (centers : Mat)
    (labels : ℕ → ℕ) (hl : ∀ i < n, labels i < k) :
    inertia_dense n d x w (updateCentersFrom n x w centers labels) labels
      ≤ inertia_dense n d x w centers labels := by
  unfold inertia_dense
  have hmaps : ∀ i ∈ Finset.range n, labels i ∈ Finset.range k :=
    fun i hi => Finset.mem_range.mpr (hl i (Finset.mem_range.mp hi))
  rw [← Finset.sum_fiberwise_of_maps_to hmaps
      (fun i => sqdist d (x i) (updateCentersFrom n x w centers labels (labels i)) * w i),
    ← Finset.sum_fiberwise_of_maps_to hmaps
      (fun i => sqdist d (x i) (centers (labels i)) * w i)]
  apply Finset.sum_le_sum
  intro c _
  have hfib : ∀ i ∈ (Finset.range n).filter (fun i => labels i = c), labels i = c :=
    fun i hi => (Finset.mem_filter.mp hi).2
  have hL : ∀ i ∈ (Finset.range n).filter (fun i => labels i = c),
      sqdist d (x i) (updateCentersFrom n x w centers labels (labels i)) * w i
        = sqdist d (x i) (updateCentersFrom n x w centers labels c) * w i :=
    fun i hi => by rw [hfib i hi]
  have hR : ∀ i ∈ (Finset.range n).filter (fun i => labels i = c),
      sqdist d (x i) (centers (labels i)) * w i
        = sqdist d (x i) (centers c) * w i :=
    fun i hi => by rw [hfib i hi]
  rw [Finset.sum_congr rfl hL, Finset.sum_congr rfl hR]
  exact cluster_contribution_le n d x w centers labels c

/-- The assignment step does not increase inertia relative to any valid
label assignment against the same centers. -/
lemma inertia_assign_le (n d k : ℕ) (x : Mat) (w : Vec) (centers : Mat)
    (labels : ℕ → ℕ) (hl : ∀ i < n, labels i < k) (hw : ∀ i, 0 ≤ w i) :
    inertia_dense n d x w centers (assignLabels n d k x centers)
      ≤ inertia_dense n d x w centers labels := by
  unfold inertia_dense
  apply Finset.sum_le_sum
  intro i hi
  have hi' := Finset.mem_range.mp hi
  exact mul_le_mul_of_nonneg_right
    (assignLabels_min n d k x centers i hi' (labels i) (hl i hi')) (hw i)

/-- One full Lloyd iteration does not increase inertia relative to any
incoming valid `(centers, labels)` pair. -/
lemma lloyd_step_inertia_le (n d k : ℕ) (x : Mat) (w : Vec) (hk : 0 < k)
    (hw : ∀ i, 0 ≤ w i) (centers : Mat) (labels : ℕ → ℕ)
    (hl : ∀ i < n, labels i < k) :
    inertia_dense n d x w (lloyd_iter_chunked_dense n d k x w centers true).centers
        (lloyd_iter_chunked_dense n d k x w centers true).labels
      ≤ inertia_dense n d x w centers labels := by
  rw [lloyd_iter_labels, lloyd_iter_centers_true]
  have step1 : inertia_dense n d x w
      (updateCentersFrom n x w centers (assignLabels n d k x centers))
      (assignLabels n d k x centers)
      ≤ inertia_dense n d x w centers (assignLabels n d k x centers) :=
    inertia_update_le n d k x w centers _
      (fun i hi => assignLabels_lt n d k x centers hk i hi)
  have step2 : inertia_dense n d x w centers (assignLabels n d k x centers)
      ≤ inertia_dense n d x w centers labels :=
    inertia_assign_le n d k x w centers labels hl hw
  exact le_trans step1 step2

/-- `HashSet::len` of the collected labels equals the cardinality of the
image of the label function over the index range. -/
lemma distinctLabels_eq_card_image (n : ℕ) (l : ℕ → ℕ) :
    distinctLabels n l = ((Finset.range n).image l).card := by
  unfold distinctLabels
  rw [← List.card_toFinset]
  congr 1

/-- Folding a step that always produces `some` over a nonempty list yields
`some`. -/
lemma foldl_isSome {α β : Type} (f : Option α → β → Option α)
    (hf : ∀ acc y, (f acc y).isSome = true) :
    ∀ (l : List β) (b : Option α), l ≠ [] → (l.foldl f b).isSome = true := by
  intro l
  induction l with
  | nil => intro b h; exact absurd rfl h
  | cons y l ih =>
    intro b _
    show (l.foldl f (f b y)).isSome = true
    cases l with
    | nil => exact hf b y
    | cons z l2 => exact ih (f b y) (by simp)

/-- A restart step always carries a best run forward. -/
lemma fitStep_isSome (n d k maxIter : ℕ) (tol : ℚ) (xc : Mat) (s : ℕ → ℚ) :
    ∀ acc r, (fitStep n d k maxIter tol xc s acc r).isSome = true := by
  intro acc r
  unfold fitStep
  cases acc with
  | none => rfl
  | some b =>
    dsimp only
    split <;> rfl

/-- The `Random` strategy always performs at least one restart. -/
lemma knnNInit_pos (p : ℕ) : 0 < knnNInit p := by
  unfold knnNInit
  split <;> omega

/-- `fit` always has a best run to return. -/
lemma fitBest_isSome (n d k maxIter : ℕ) (tol : ℚ) (nInit : ℕ) (xc : Mat) (s : ℕ → ℚ)
    (hpos : 0 < nInit) :
    (fitBest n d k maxIter tol nInit xc s).isSome = true := by
  unfold fitBest
  apply foldl_isSome _ (fitStep_isSome n d k maxIter tol xc s)
  intro h
  rw [List.range_eq_nil] at h
  omega

/-- The warning flag of `fit` fires exactly when the best run's labels
contain fewer than `k` distinct values. -/
lemma fitRandom_warns_iff (n d k maxIter : ℕ) (tol : ℚ) (nInitParam : ℕ) (x : Mat)
    (s : ℕ → ℚ) :
    (fitRandom n d k maxIter tol nInitParam x s).warns = true
      ↔ ((Finset.range n).image (fitRandom n d k maxIter tol nInitParam x s).labels).card
          < k := by
  unfold fitRandom
  rcases hb : fitBest n d k maxIter tol (knnNInit nInitParam) (fitCenteredData n x) s
    with _ | b
  · have := fitBest_isSome n d k maxIter tol (knnNInit nInitParam) (fitCenteredData n x) s
      (knnNInit_pos nInitParam)
    rw [hb] at this
    exact absurd this (by simp)
  · simp only [decide_eq_true_eq, distinctLabels_eq_card_image]

/-- The `i`-th pair of a zip is the pair of `i`-th elements. -/
lemma zip_getD_mem {α : Type} (dflt : α) :
    ∀ (us : List α) (ls : List ℤ) (i : ℕ), i < us.length → i < ls.length →
      (us.getD i dflt, ls.getD i 0) ∈ us.zip ls := by
  intro us
  induction us with
  | nil => intro ls i h _; simp at h
  | cons u us ih =>
    intro ls i h1 h2
    cases ls with
    | nil => simp at h2
    | cons l ls =>
      cases i with
      | zero => simp [List.zip]
      | succ i =>
        have := ih ls i (by simpa using h1) (by simpa using h2)
        simp only [List.getD_cons_succ, List.zip_cons_cons]
        exact List.mem_cons_of_mem _ this

/-- C1: the claim states that `pca_reduce` centers column-wise (subtract
the per-feature mean taken across the `n` samples) before the SVD.  The
code computes `mean_axis(Axis(1))` — per-row means — and subtracts those,
i.e. it centers per sample.  On `x = [[0,2],[0,0]]` the matrix the code
feeds to the SVD has entry `(0,0) = -1`, while column-wise centering gives
`0` there. -/
theorem C1_pca_centers_per_row_not_per_column :
    pca_center 2 2 xPcaEx 0 0 = -1
    ∧ pca_center_claimed 2 2 xPcaEx 0 0 = 0
    ∧ pca_center 2 2 xPcaEx 0 0 ≠ pca_center_claimed 2 2 xPcaEx 0 0 := by
  refine ⟨?_, ?_, ?_⟩ <;> with_unfolding_all decide

/-- C2: the claim states the row normalizer divides by `max(norm, ε)` for a
small ε, making nonzero rows unit length and the map idempotent.  The code
(`src/classify.rs` `normalize_embedding`) computes
`sum_sq.sqrt().max(f64::MAX)`, so every row is divided by `f64::MAX`: the
row `[3,4]` maps to `[3/f64MAX, 4/f64MAX]`, whose squared norm is not 1,
and a second application shrinks it again, so the map is not idempotent. -/
theorem C2_normalize_divides_by_f64MAX :
    ((normalize_embedding [3, 4]).map (fun t => t * t)).sum ≠ 1
    ∧ (normalize_embedding [3, 4]).getD 0 0 = 3 / f64MAX
    ∧ normalize_embedding (normalize_embedding [3, 4]) ≠ normalize_embedding [3, 4]
    ∧ normalize_embedding [0, 0] = [0, 0] := by
  have hM5 : (5 : ℚ) < f64MAX := by with_unfolding_all decide
  have hM1 : (1 : ℚ) < f64MAX := by with_unfolding_all decide
  have hM0 : (0 : ℚ) < f64MAX := lt_trans one_pos hM1
  have hMne : f64MAX ≠ 0 := ne_of_gt hM0
  have hsq25 : Rat.sqrt 25 = 5 := by with_unfolding_all rfl
  have hN : normalize_embedding [3, 4] = [3 / f64MAX, 4 / f64MAX] := by
    unfold normalize_embedding
    have h1 : (([3, 4] : List ℚ).map (fun t => t * t)).sum = 25 := by norm_num
    dsimp only
    rw [h1, hsq25, if_pos (le_of_lt hM5)]
    norm_num
  have hsumq : (([3 / f64MAX, 4 / f64MAX] : List ℚ).map (fun t => t * t)).sum
      = (5 / f64MAX) * (5 / f64MAX) := by
    simp only [List.map_cons, List.map_nil, List.sum_cons, List.sum_nil, add_zero]
    field_simp
    ring
  have hsq2 : Rat.sqrt ((([3 / f64MAX, 4 / f64MAX] : List ℚ).map (fun t => t * t)).sum)
      = 5 / f64MAX := by
    rw [hsumq, Rat.sqrt_eq]
    exact abs_of_nonneg (by positivity)
  have hle2 : 5 / f64MAX ≤ f64MAX := by
    rw [div_le_iff₀ hM0]
    nlinarith [hM5]
  have hN2 : normalize_embedding [3 / f64MAX, 4 / f64MAX]
      = [3 / f64MAX / f64MAX, 4 / f64MAX / f64MAX] := by
    unfold normalize_embedding
    dsimp only
    rw [hsq2, if_pos hle2]
    norm_num
  refine ⟨?_, ?_, ?_, ?_⟩
  · rw [hN, hsumq]
    intro heq
    rw [div_mul_div_comm] at heq
    rw [div_eq_one_iff_eq (by positivity)] at heq
    nlinarith [hM5]
  · rw [hN]
    rfl
  · rw [hN, hN2]
    intro h
    have h0 : (3 : ℚ) / f64MAX / f64MAX = 3 / f64MAX := (List.cons_eq_cons.mp h).1
    rw [div_div, div_eq_div_iff (ne_of_gt (by positivity)) hMne] at h0
    nlinarith [hM1, hM0]
  · unfold normalize_embedding
    have h0 : (([0, 0] : List ℚ).map (fun t => t * t)).sum = 0 := by norm_num
    have hsq0 : Rat.sqrt 0 = 0 := by with_unfolding_all rfl
    dsimp only
    rw [h0, hsq0, if_pos (le_of_lt hM0)]
    norm_num

/-- C3: the labels and centers returned by `kmeans_single_lloyd` are
mutually consistent — every returned label indexes a nearest center among
the returned centers (when the loop stops without strict convergence the
labels are recomputed once against the final centers first).  Hypotheses:
at least one cluster, and the cluster count fits in a 64-bit `usize`. -/
theorem C3_kmeans_labels_centers_consistent (n d k : ℕ) (x : Mat) (w : Vec)
    (ci : Mat) (maxIter : ℕ) (tol : ℚ) (hk : 0 < k) (hk64 : k < 2 ^ 64) :
    ConsistentPair n d k x
      (kmeans_single_lloyd n d k x w ci maxIter tol).centers
      (kmeans_single_lloyd n d k x w ci maxIter tol).labels := by
  rcases Nat.eq_zero_or_pos n with hn | hn
  · subst hn
    intro i hi
    omega
  · simp only [kmeans_single_lloyd]
    by_cases hstrict :
        (lloydGo n d k x w tol maxIter 0 ci (fun _ => 0) (fun _ => USIZE_MAX)).strict = true
    · rw [if_pos hstrict]
      exact lloydGo_strict_consistent n d k x w tol hn hk hk64 maxIter 0 ci
        (fun _ => 0) (fun _ => USIZE_MAX) (Or.inl fun i => rfl) hstrict
    · rw [if_neg hstrict]
      rw [lloyd_iter_labels]
      intro i hi
      exact ⟨assignLabels_lt n d k x _ hk i hi,
        fun c hc => assignLabels_min n d k x _ i hi c hc⟩

/-- C3 witness: the consistency theorem applied to a concrete two-point,
two-cluster run. -/
theorem C3_witness :
    0 < 2 ∧ ConsistentPair 2 1 2 xTwoPoints
      (kmeans_single_lloyd 2 1 2 xTwoPoints wOne cTwoCenters 20 (1 / 1000000)).centers
      (kmeans_single_lloyd 2 1 2 xTwoPoints wOne cTwoCenters 20 (1 / 1000000)).labels :=
  ⟨by decide, C3_kmeans_labels_centers_consistent 2 1 2 xTwoPoints wOne cTwoCenters 20
    (1 / 1000000) (by decide) (by decide)⟩

/-- C4: on a fixed dataset with fixed sample weights and initial centers,
the inertia of the `(centers, labels)` pair produced by successive Lloyd
iterations of `kmeans_single_lloyd` is non-increasing, for nonnegative
sample weights and at least one cluster. -/
theorem C4_lloyd_inertia_nonincreasing (n d k : ℕ) (x : Mat) (w : Vec) (c0 : Mat)
    (hk : 0 < k) (hw : ∀ i, 0 ≤ w i) (t : ℕ) :
    inertia_dense n d x w (lloydIterState n d k x w c0 (t + 1)).1
        (lloydIterState n d k x w c0 (t + 1)).2
      ≤ inertia_dense n d x w (lloydIterState n d k x w c0 t).1
          (lloydIterState n d k x w c0 t).2 := by
  unfold lloydIterState
  have hseq : lloydSeqCenters n d k x w c0 (t + 1)
      = (lloyd_iter_chunked_dense n d k x w (lloydSeqCenters n d k x w c0 t) true).centers := by
    rw [lloydSeqCenters]
  rw [← hseq]
  apply lloyd_step_inertia_le n d k x w hk hw
  intro i hi
  rw [lloyd_iter_labels]
  exact assignLabels_lt n d k x _ hk i hi

/-- C4 witness: the monotonicity theorem applied to a concrete run. -/
theorem C4_witness :
    inertia_dense 2 1 xTwoPoints wOne (lloydIterState 2 1 1 xTwoPoints wOne cTwoCenters 1).1
        (lloydIterState 2 1 1 xTwoPoints wOne cTwoCenters 1).2
      ≤ inertia_dense 2 1 xTwoPoints wOne
          (lloydIterState 2 1 1 xTwoPoints wOne cTwoCenters 0).1
          (lloydIterState 2 1 1 xTwoPoints wOne cTwoCenters 0).2 :=
  C4_lloyd_inertia_nonincreasing 2 1 1 xTwoPoints wOne cTwoCenters (by decide)
    (fun _ => zero_le_one) 0

/-- C5 counterexample: on the sorted list `[1,1,1,1,10,11,12]` the
elbow/kneedle selector of the source does not return 10: the maximum
perpendicular distance to the chord from `(0,1)` to `(6,12)` is attained
at index 3 (the last flat value), not after the jump. -/
theorem C5_counterexample : elbow_kneedle [1, 1, 1, 1, 10, 11, 12] ≠ 10 := by
  with_unfolding_all decide

/-- C5 (amended): on `[1,1,1,1,10,11,12]` the selector returns `1`, the
value at the index of maximum perpendicular distance to the chord — the
last value *before* the largest jump. -/
theorem C5_amended_returns_one : elbow_kneedle [1, 1, 1, 1, 10, 11, 12] = 1 := by
  with_unfolding_all decide

/-- C6: the chunked Lloyd iteration returns exactly the unchunked
whole-data computation — for the source's fixed chunk size 256 and for
every positive chunk size, so the result does not depend on the chunk
size. -/
theorem C6_chunked_equals_unchunked (s n d k : ℕ) (hs : 0 < s) (x : Mat) (w : Vec)
    (co : Mat) (u : Bool) :
    lloyd_iter_chunked_dense n d k x w co u = lloyd_iter_unchunked n d k x w co u
    ∧ lloyd_iter_chunked_with s n d k x w co u = lloyd_iter_unchunked n d k x w co u :=
  ⟨lloyd_iter_chunked_eq CHUNK_SIZE n d k chunkSizePos x w co u,
    lloyd_iter_chunked_eq s n d k hs x w co u⟩

/-- C6 witness: the equivalence applied at chunk size 2 on three points
(two chunks). -/
theorem C6_witness :
    lloyd_iter_chunked_dense 3 1 2 xRamp wOne cTwoCenters true
        = lloyd_iter_unchunked 3 1 2 xRamp wOne cTwoCenters true
    ∧ lloyd_iter_chunked_with 2 3 1 2 xRamp wOne cTwoCenters true
        = lloyd_iter_unchunked 3 1 2 xRamp wOne cTwoCenters true :=
  C6_chunked_equals_unchunked 2 3 1 2 (by decide) xRamp wOne cTwoCenters true

/-- C7: in every Lloyd center-update step a cluster with zero total weight
keeps its previous center row (never reseeded) while every cluster of
nonzero weight becomes the weighted mean of its assigned points; and
`Knn::fit` emits its warning exactly when the fitted labels contain fewer
than `k` distinct clusters. -/
theorem C7_empty_cluster_kept_and_fit_warns (n d k maxIter : ℕ) (x : Mat) (w : Vec)
    (co : Mat) (tol : ℚ) (nInitParam : ℕ) (x2 : Mat) (s : ℕ → ℚ)
    (hk : 0 < k) (hw : ∀ i, 0 ≤ w i) :
    (∀ c < k,
      ((lloyd_iter_chunked_dense n d k x w co true).weights c = 0 →
        ∀ j, (lloyd_iter_chunked_dense n d k x w co true).centers c j = co c j)
      ∧ ((lloyd_iter_chunked_dense n d k x w co true).weights c ≠ 0 →
        ∀ j, (lloyd_iter_chunked_dense n d k x w co true).centers c j
          = clusterSum n x w (lloyd_iter_chunked_dense n d k x w co true).labels c j
            / clusterWeight n w (lloyd_iter_chunked_dense n d k x w co true).labels c))
    ∧ ((fitRandom n d k maxIter tol nInitParam x2 s).warns = true
        ↔ ((Finset.range n).image
            (fitRandom n d k maxIter tol nInitParam x2 s).labels).card < k) := by
  constructor
  · intro c _
    have hW := lloyd_iter_weights_true n d k x w co
    have hC := lloyd_iter_centers_true n d k x w co
    have hL := lloyd_iter_labels n d k x w co true
    constructor
    · intro h0 j
      rw [hC]
      rw [hW] at h0
      unfold updateCentersFrom
      rw [if_neg (by rw [h0]; exact lt_irrefl 0)]
    · intro hne j
      rw [hC, hL]
      rw [hW] at hne
      have hpos : 0 < clusterWeight n w (assignLabels n d k x co) c :=
        lt_of_le_of_ne (Finset.sum_nonneg fun i _ => hw i) (Ne.symm hne)
      unfold updateCentersFrom
      rw [if_pos hpos]
  · exact fitRandom_warns_iff n d k maxIter tol nInitParam x2 s

/-- C7 witness: the theorem applied to a run with an empty second cluster
and to a concrete `fit`. -/
theorem C7_witness :
    (∀ c < 2,
      ((lloyd_iter_chunked_dense 2 1 2 xAllZero wOne cTwoCenters true).weights c = 0 →
        ∀ j, (lloyd_iter_chunked_dense 2 1 2 xAllZero wOne cTwoCenters true).centers c j
          = cTwoCenters c j)
      ∧ ((lloyd_iter_chunked_dense 2 1 2 xAllZero wOne cTwoCenters true).weights c ≠ 0 →
        ∀ j, (lloyd_iter_chunked_dense 2 1 2 xAllZero wOne cTwoCenters true).centers c j
          = clusterSum 2 xAllZero wOne
              (lloyd_iter_chunked_dense 2 1 2 xAllZero wOne cTwoCenters true).labels c j
            / clusterWeight 2 wOne
              (lloyd_iter_chunked_dense 2 1 2 xAllZero wOne cTwoCenters true).labels c))
    ∧ ((fitRandom 2 1 2 300 (1 / 10000) 0 xTwoPoints streamZero).warns = true
        ↔ ((Finset.range 2).image
            (fitRandom 2 1 2 300 (1 / 10000) 0 xTwoPoints streamZero).labels).card < 2) :=
  C7_empty_cluster_kept_and_fit_warns 2 1 2 300 xAllZero wOne cTwoCenters (1 / 10000) 0
    xTwoPoints streamZero (by decide) (fun _ => zero_le_one)

/-- C8 counterexample: the claim says shape-violating inputs yield typed
error results and never panic; in the code, `Knn::distances` with
`k ≥ n_samples` hits `assert!` and aborts, and `embeddings_to_ndarray` on
an empty list aborts on the `embs[0]` index — neither returns an error. -/
theorem C8_counterexample :
    embeddings_to_ndarray ([] : List (List ℚ)) = RunOutcome.panicked
    ∧ knn_distances 3 2 1 xAllZero = RunOutcome.panicked :=
  ⟨rfl, rfl⟩

/-- C8 (amended): shape-violating inputs abort the process rather than
returning typed errors: `distances` panics for every `k ≥ n`, and
converting an empty embedding list panics (as the repository's own
`should_panic` test documents); no `InputShapeError` kind exists. -/
theorem C8_amended_panics (k n d : ℕ) (x : Mat) (h : n ≤ k) :
    knn_distances k n d x = RunOutcome.panicked
    ∧ embeddings_to_ndarray ([] : List (List ℚ)) = RunOutcome.panicked := by
  constructor
  · unfold knn_distances
    rw [if_neg (by omega)]
  · rfl

/-- C8 witness: the amended theorem applied at `k = 5`, `n = 4`. -/
theorem C8_witness :
    4 ≤ 5 ∧ (knn_distances 5 4 1 xAllZero = RunOutcome.panicked
      ∧ embeddings_to_ndarray ([] : List (List ℚ)) = RunOutcome.panicked) :=
  ⟨by decide, C8_amended_panics 5 4 1 xAllZero (by decide)⟩

/-- C9: re-running `Knn::fit` on identical caller-visible inputs (same
data, same `k`, same distribution, same iteration budget) but under
different ambient thread-RNG sample streams returns different labels: the
random source is `rand::rng()` inside `init_centroids`, not anything the
caller can seed, so two same-input runs need not be bitwise-equal. -/
theorem C9_fit_depends_on_ambient_rng :
    (fitRandom 2 1 2 300 (1 / 10000) 1 xTwoPoints streamZero).labels 0 = 1
    ∧ (fitRandom 2 1 2 300 (1 / 10000) 1 xTwoPoints streamAlt).labels 0 = 0 := by
  constructor <;> with_unfolding_all decide

/-- C10: `group_by_cluster` in linalg places every item in the map under
the key `label as usize` — a noise item labelled `-1` appears under key
`2^64 - 1` instead of being dropped — whereas the grouping loop of
`HdbscanClusterer::cluster` excludes every index with a negative label. -/
theorem C10_group_by_cluster_keeps_noise {α : Type} (urls : List α) (labels : List ℤ)
    (dflt : α) (i : ℕ) (h1 : i < urls.length) (h2 : i < labels.length) :
    urls.getD i dflt ∈ group_by_cluster urls labels (i32AsUsize (labels.getD i 0))
    ∧ (labels.getD i 0 = -1 → i32AsUsize (labels.getD i 0) = 2 ^ 64 - 1)
    ∧ (labels.getD i 0 < 0 → ∀ key, i ∉ hdbscan_cluster_group labels key) := by
  refine ⟨?_, ?_, ?_⟩
  · unfold group_by_cluster
    apply List.mem_map.mpr
    refine ⟨(urls.getD i dflt, labels.getD i 0), ?_, rfl⟩
    apply List.mem_filter.mpr
    exact ⟨zip_getD_mem dflt urls labels i h1 h2, by simp⟩
  · intro h
    rw [h]
    with_unfolding_all decide
  · intro hneg key hmem
    unfold hdbscan_cluster_group at hmem
    have hcond := (List.mem_filter.mp hmem).2
    rw [decide_eq_true_eq] at hcond
    exact absurd hcond.1 (by omega)

/-- C10 witness: the theorem applied to two items with labels `[-1, 0]`. -/
theorem C10_witness :
    ([10, 20] : List ℕ).getD 0 0
        ∈ group_by_cluster ([10, 20] : List ℕ) [-1, 0]
            (i32AsUsize (([-1, 0] : List ℤ).getD 0 0))
    ∧ ((([-1, 0] : List ℤ).getD 0 0) = -1 →
        i32AsUsize (([-1, 0] : List ℤ).getD 0 0) = 2 ^ 64 - 1)
    ∧ ((([-1, 0] : List ℤ).getD 0 0) < 0 →
        ∀ key, 0 ∉ hdbscan_cluster_group [-1, 0] key) :=
  C10_group_by_cluster_keeps_noise ([10, 20] : List ℕ) [-1, 0] 0 0 (by decide) (by decide)

end DailyAI
